import Mathlib

/-!
Verification of the cedar-OS agent-to-state bridge.

Shallow embedding, translated from the repository sources:
- `store/stateSlice/stateSlice.ts` (capability registry),
- `store/agentInputContext/agentInputContextSlice.ts` (context assembler),
- `store/agentConnection/streamUtils.ts` (SSE stream codec),
- `store/agentConnection/providers/mastra.ts` (provider adapter),
- `store/agentConnection/agentConnectionSlice.ts` (gateway validation and
  structured-response routing).

JavaScript objects used as string-keyed records are modelled as association
lists with in-place overwrite (`Rec`), mirroring object-spread semantics.
JavaScript values stored in the registry are modelled by the inductive
`JsonValue`. Functions supplied by the host (setter `execute` bodies, React
`setValue` callbacks) are never inspected by the code under verification, only
invoked; they are modelled by an opaque type parameter `ε`, and an invocation
is recorded as a returned effect rather than executed.
-/

set_option autoImplicit false

namespace Cedar

/-- JSON-like values: the `BasicStateValue` payloads stored in registered
states and carried as setter arguments. -/
inductive JsonValue where
  | null : JsonValue
  | bool (b : Bool) : JsonValue
  | num (n : Int) : JsonValue
  | str (s : String) : JsonValue
  | arr (xs : List JsonValue) : JsonValue
  | obj (fields : List (String × JsonValue)) : JsonValue

/-- A JavaScript `Record<string, α>`: an association list whose key order is
insertion order, with at most one binding per key in well-formed use. -/
abbrev Rec (α : Type) : Type := List (String × α)

namespace Rec

/-- Property read `r[k]`: the first binding for `k`, if any. -/
def get {α : Type} (r : Rec α) (k : String) : Option α :=
  (r.find? (fun p => p.1 = k)).map Prod.snd

/-- Property write `{...r, [k]: v}`: overwrite in place when `k` is bound,
append otherwise — the JS object-spread-with-computed-key shape. -/
def set {α : Type} (r : Rec α) (k : String) (v : α) : Rec α :=
  if (Rec.get r k).isSome then
    r.map (fun p => if p.1 = k then (k, v) else p)
  else
    r ++ [(k, v)]

/-- Object spread `{...a, ...b}`: sequential assignment of `b`'s bindings
into `a`, later bindings winning. -/
def spreadMerge {α : Type} (a b : Rec α) : Rec α :=
  b.foldl (fun acc p => Rec.set acc p.1 p.2) a

end Rec

/-! ## Capability registry (`store/stateSlice/stateSlice.ts`)

The registry maps state keys to `registeredState` records. Host-supplied
functions (`execute` bodies of setters, the primary `setValue` updater) are
opaque to the slice, which only stores and invokes them; they are a type
parameter `ε`. An invocation performed by `executeCustomSetter` is returned
as a `SetterInvocation` effect instead of being run. -/

/-- Parameter metadata of a custom setter (`SetterParameter`). -/
structure SetterParameter where
  name : String
  type : String
  description : String
  optional : Option Bool
  deriving DecidableEq

/-- A named custom setter (`Setter`): metadata plus the host-supplied
execution function, which the slice never inspects. -/
structure Setter (ε : Type) where
  name : String
  description : String
  parameters : Option (List SetterParameter)
  execute : ε

/-- A Zod schema value as stored in the registry: either the `z.any()`
placeholder schema the slice itself creates, or an opaque host-supplied
schema. -/
inductive ZodSchemaV where
  | zAny : ZodSchemaV
  | hostSchema (tag : Nat) : ZodSchemaV
  deriving DecidableEq

/-- A registered state record (`registeredState`). Optional TypeScript fields
are `Option`s; an absent `customSetters` is `none`. -/
structure registeredState (ε : Type) where
  key : String
  value : JsonValue
  setValue : Option ε
  description : Option String
  schema : Option ZodSchemaV
  customSetters : Option (Rec (Setter ε))

/-- Argument object of `registerState` (its `config` parameter). -/
structure RegisterConfig (ε : Type) where
  key : String
  value : JsonValue
  setValue : Option ε
  description : Option String
  schema : Option ZodSchemaV
  customSetters : Option (Rec (Setter ε))

/-- `registerState`: when the key already exists, overwrite only `value`
(spread of the existing record with `value: config.value`); otherwise store a
fresh record built from the config. -/
def registerState {ε : Type} (m : Rec (registeredState ε)) (config : RegisterConfig ε) :
    Rec (registeredState ε) :=
  match Rec.get m config.key with
  | some existing =>
      Rec.set m config.key { existing with value := config.value }
  | none =>
      Rec.set m config.key
        ⟨config.key, config.value, config.setValue, config.description,
          config.schema, config.customSetters⟩

/-- `addCustomSetters`: merge setters into an existing state, or create a
placeholder state (empty-string value, `z.any()` schema, empty description)
holding the setters. Returns the updated registry and the `true` the source
returns. -/
def addCustomSetters {ε : Type} (m : Rec (registeredState ε)) (key : String)
    (setters : Rec (Setter ε)) : Rec (registeredState ε) × Bool :=
  match Rec.get m key with
  | none =>
      (Rec.set m key
        ⟨key, JsonValue.str "", none, some "", some ZodSchemaV.zAny, some setters⟩,
        true)
  | some existing =>
      (Rec.set m key
        { existing with
          customSetters :=
            some (Rec.spreadMerge (existing.customSetters.getD []) setters) },
        true)

/-- The effect `executeCustomSetter` performs on the hit path: calling
`setter.execute(existingState.value, ...args)`. -/
structure SetterInvocation (ε : Type) where
  setter : Setter ε
  currentValue : JsonValue
  args : List JsonValue

/-- `executeCustomSetter`: look up the state, then its custom setter; on any
miss, warn and return with no effect (the registry map is returned untouched
and no invocation happens). On a hit, the invocation of
`setter.execute(value, ...args)` is recorded. Every property access in the
source is guarded, so the function cannot throw; the embedding is
correspondingly total. -/
def executeCustomSetter {ε : Type} (m : Rec (registeredState ε)) (key setterKey : String)
    (args : List JsonValue) : Rec (registeredState ε) × Option (SetterInvocation ε) :=
  match Rec.get m key with
  | none => (m, none)
  | some existingState =>
    match existingState.customSetters with
    | none => (m, none)
    | some setters =>
      match Rec.get setters setterKey with
      | none => (m, none)
      | some setter => (m, some ⟨setter, existingState.value, args⟩)

/-! ## Context assembler (`store/agentInputContext/agentInputContextSlice.ts`)

The `ContextEntry` type declaration lives in `agentInputContext/types.ts`,
which is not among the sources; its shape is taken from the spec's data model
(`id`, `source` enum, `data`, optional `metadata`). The operation
`addContextEntry` under verification is translated from the slice source and
only inspects `id`. -/

/-- Source tag of a context entry. -/
inductive ContextSource where
  | mention : ContextSource
  | subscription : ContextSource
  | manual : ContextSource
  deriving DecidableEq

/-- A context entry grouped under a logical key. -/
structure ContextEntry where
  id : String
  source : ContextSource
  data : JsonValue
  metadata : Option JsonValue

/-- `addContextEntry`: no-op when an entry with the same `id` already exists
under `key`; otherwise append the entry to that key's list. -/
def addContextEntry (ctx : Rec (List ContextEntry)) (key : String) (entry : ContextEntry) :
    Rec (List ContextEntry) :=
  let currentEntries := (Rec.get ctx key).getD []
  if currentEntries.any (fun e => e.id == entry.id) then ctx
  else Rec.set ctx key (currentEntries ++ [entry])

/-! ## Structured-response router
(`handleLLMResult` in `store/agentConnection/agentConnectionSlice.ts`)

The router reads `response.object` and either records an
`executeCustomSetter` invocation or appends chat messages. Effects are
returned as an ordered list. JavaScript truthiness of optional strings
(`undefined` and the empty string are falsy) is modelled by `truthyStr`. -/

/-- Truthiness of an optional JS string: `undefined`, `null` and `""` are
falsy, every other string truthy. -/
def truthyStr : Option String → Bool
  | none => false
  | some s => !(s == "")

/-- The structured payload carried in `response.object`. All fields are
optional at runtime; the router checks each before use. -/
structure StructuredResponse where
  type : Option String
  stateKey : Option String
  setterKey : Option String
  args : Option (List JsonValue)
  role : Option String
  content : Option String

/-- An `LLMResponse` as consumed by `handleLLMResult`: plain-text content
plus the optional structured `object` payload. The source guards the object
with `typeof response.object === 'object'`; the embedding types it. -/
structure LLMResponse where
  content : String
  object : Option StructuredResponse

/-- An observable effect of `handleLLMResult`: an invocation of
`executeCustomSetter(stateKey, setterKey, ...args)` on the registry, or an
`addMessage({role, type, content})` call on the message store. -/
inductive HandleEffect where
  | execSetter (stateKey setterKey : String) (args : List JsonValue) : HandleEffect
  | addMessage (role ty content : String) : HandleEffect

/-- `handleLLMResult`, translated case by case. The `action` arm of the
switch ends in `break`, so control falls through to the default
append-content path; the `message` arm returns early. -/
def handleLLMResult (r : LLMResponse) : List HandleEffect :=
  let defaultAppend : List HandleEffect :=
    if r.content == "" then [] else [.addMessage "assistant" "text" r.content]
  match r.object with
  | none => defaultAppend
  | some sr =>
    match sr.type with
    | none => defaultAppend
    | some t =>
      if t == "" then defaultAppend
      else if t == "action" then
        (if truthyStr sr.stateKey && truthyStr sr.setterKey then
          [.execSetter (sr.stateKey.getD "") (sr.setterKey.getD "") (sr.args.getD [])]
        else []) ++ defaultAppend
      else if t == "message" then
        [.addMessage (if truthyStr sr.role then sr.role.getD "" else "assistant")
          "text"
          (if truthyStr sr.content then sr.content.getD "" else r.content)]
      else defaultAppend

/-! ## Provider gateway validation
(`callLLM` / `streamLLM` in `store/agentConnection/agentConnectionSlice.ts`)

Both methods read the configured provider, throw when none is configured,
run the per-kind parameter switch, and only then reach
`provider.callLLM` / `provider.streamLLM` — the first point at which
network I/O can happen. The embedding returns either the thrown
configuration error or a marker that the provider implementation (and hence
the network) was reached. -/

/-- The configured provider kind (the `provider` discriminant of
`ProviderConfig`). -/
inductive ProviderKind where
  | openai : ProviderKind
  | anthropic : ProviderKind
  | mastra : ProviderKind
  | aiSdk : ProviderKind
  | custom : ProviderKind
  deriving DecidableEq

/-- Which optional keys the `params` object carries: the runtime checks are
`'model' in params` and `'route' in params`. -/
structure ParamsFields where
  hasModel : Bool
  hasRoute : Bool
  deriving DecidableEq

/-- Outcome of `callLLM`/`streamLLM` up to the provider hand-off: either a
configuration error thrown before any network call, or the hand-off to the
provider implementation. -/
inductive GatewayOutcome where
  | configError (msg : String) : GatewayOutcome
  | providerNetworkCall (kind : ProviderKind) : GatewayOutcome
  deriving DecidableEq

/-- Whether a gateway outcome is a thrown configuration error. -/
def isConfigError : GatewayOutcome → Bool
  | .configError _ => true
  | .providerNetworkCall _ => false

/-- `callLLM`: throw when no provider is configured; per-kind parameter
validation; then hand off to the provider implementation. -/
def callLLM (config : Option ProviderKind) (params : ParamsFields) : GatewayOutcome :=
  match config with
  | none => .configError "No LLM provider configured"
  | some kind =>
    match kind with
    | .openai | .anthropic =>
      if !params.hasModel then .configError "provider requires model parameter"
      else .providerNetworkCall kind
    | .mastra =>
      if !params.hasRoute then .configError "Mastra provider requires route parameter"
      else .providerNetworkCall kind
    | .aiSdk =>
      if !params.hasModel then .configError "AI SDK provider requires model parameter"
      else .providerNetworkCall kind
    | .custom => .providerNetworkCall kind

/-- `streamLLM`: identical guard structure to `callLLM` (no provider
configured, then the same per-kind switch) before the abort controller is
created and the provider stream is started. -/
def streamLLM (config : Option ProviderKind) (params : ParamsFields) : GatewayOutcome :=
  match config with
  | none => .configError "No LLM provider configured"
  | some kind =>
    match kind with
    | .openai | .anthropic =>
      if !params.hasModel then .configError "provider requires model parameter"
      else .providerNetworkCall kind
    | .mastra =>
      if !params.hasRoute then .configError "Mastra provider requires route parameter"
      else .providerNetworkCall kind
    | .aiSdk =>
      if !params.hasModel then .configError "AI SDK provider requires model parameter"
      else .providerNetworkCall kind
    | .custom => .providerNetworkCall kind

/-! ## Stream protocol codec (`store/agentConnection/streamUtils.ts`)

Decoded text is modelled as `List Char`; each element of `chunks` is the
text the `TextDecoder` produces for one `reader.read()` result. The
decoder is invoked with `{stream: true}`, whose contract makes the
concatenation of decoded chunks independent of byte-level boundaries
(including splits inside a multi-byte character), so character chunks are
the faithful post-decode view of arbitrary byte partitions.

`parseEvent` and the `buffer.indexOf('\n\n')` extraction loop are
translated directly; the loop's fuel argument only bounds its iteration
count, and `buffer.length` always suffices because every iteration removes
at least the two terminator characters. -/

/-- Split a character list at every newline, as `raw.split('\n')` does
(an empty input yields one empty field). -/
def splitOnNL : List Char → List (List Char)
  | [] => [[]]
  | c :: rest =>
    match splitOnNL rest with
    | [] => [[]]
    | l :: ls => if c = '\n' then [] :: l :: ls else (c :: l) :: ls

/-- JS `String.prototype.trim` restricted to the ASCII whitespace the
streams at hand contain. -/
def jsWhitespace (c : Char) : Bool :=
  c == ' ' || c == '\t' || c == '\n' || c == '\r'

/-- Trim leading and trailing whitespace. -/
def trimChars (l : List Char) : List Char :=
  ((l.dropWhile jsWhitespace).reverse.dropWhile jsWhitespace).reverse

/-- One `event:`/`data:` line of a raw event block, folded over the running
`(eventType, data)` pair exactly as the source loop does: `event:` lines
retype the event (sliced after the 6-character label and trimmed); `data:`
lines append their payload (sliced after the 5-character label), with a
space appended after the payload when the event type read so far is
`suggestion`. -/
def parseEventLine (st : List Char × List Char) (line : List Char) :
    List Char × List Char :=
  if "event:".toList.isPrefixOf line then
    (trimChars (line.drop 6), st.2)
  else if "data:".toList.isPrefixOf line then
    (st.1,
      st.2 ++ (if st.1 == "suggestion".toList then line.drop 5 ++ [' '] else line.drop 5))
  else st

/-- `parseEvent`: fold the block's lines starting from the default type
`message` and empty data. -/
def parseEvent (raw : List Char) : List Char × List Char :=
  (splitOnNL raw).foldl parseEventLine ("message".toList, [])

/-- A canonical SSE event block whose `event:` line precedes its `data:`
lines: `event:<t>` followed by one `data:<p>` line per payload. Used to
state what `parseEvent` produces on multi-`data:` blocks. -/
def sseBlock (t : List Char) (ps : List (List Char)) : List Char :=
  ("event:".toList ++ t) ++
    (ps.map (fun p => '\n' :: ("data:".toList ++ p))).flatten

/-- Leftmost index of the `"\n\n"` event terminator, as
`buffer.indexOf('\n\n')`. -/
def findDoubleNL : List Char → Option Nat
  | [] => none
  | [_] => none
  | a :: b :: rest =>
    if a = '\n' ∧ b = '\n' then some 0
    else (findDoubleNL (b :: rest)).map (· + 1)

/-- State of the inner drain loop after it stops: events dispatched so far
(in order, as `(eventType, data)` pairs), whether a `done` event fired, and
the remaining partial buffer. -/
structure DrainOut where
  events : List (List Char × List Char)
  doneHit : Bool
  buffer : List Char
  deriving DecidableEq

/-- The inner `while ((idx = buffer.indexOf('\n\n')) !== -1)` loop: extract
`buffer.slice(0, idx)`, keep `buffer.slice(idx + 2)`, skip blank blocks,
stop at a `done` event, otherwise dispatch the parsed event and continue. -/
def drainFuel : Nat → List (List Char × List Char) → List Char → DrainOut
  | 0, acc, buffer => ⟨acc, false, buffer⟩
  | fuel + 1, acc, buffer =>
    match findDoubleNL buffer with
    | none => ⟨acc, false, buffer⟩
    | some idx =>
      let rawEvent := buffer.take idx
      let rest := buffer.drop (idx + 2)
      if trimChars rawEvent == [] then drainFuel fuel acc rest
      else
        let ed := parseEvent rawEvent
        if ed.1 == "done".toList then ⟨acc, true, rest⟩
        else drainFuel fuel (acc ++ [ed]) rest

/-- Result of the whole read loop: the dispatched events and whether
`onDone` was invoked. -/
structure CodecResult where
  events : List (List Char × List Char)
  doneCalled : Bool
  deriving DecidableEq

/-- The outer read loop: each `reader.read()` appends one decoded chunk to
the buffer and drains it; a `done` event returns from the function at once
(no further read, later chunks never consumed); reader exhaustion breaks the
loop and the function returns normally, discarding any partial buffer. -/
def runChunks : List (List Char × List Char) → List Char → List (List Char) →
    CodecResult
  | acc, _, [] => ⟨acc, false⟩
  | acc, buffer, c :: cs =>
    let d := drainFuel (buffer ++ c).length acc (buffer ++ c)
    if d.doneHit then ⟨d.events, true⟩ else runChunks d.events d.buffer cs

/-- `handleEventStream`: fail on a non-OK response or missing body before
any read; otherwise run the read loop. The loop body itself never throws,
so reader exhaustion without a `done` event resolves the returned promise
normally. -/
def handleEventStream (respOk hasBody : Bool) (chunks : List (List Char)) :
    Except String CodecResult :=
  if !respOk || !hasBody then .error "HTTP error"
  else .ok (runChunks [] [] chunks)

/-- The `StreamEvent` union delivered to a `StreamHandler`. -/
inductive StreamEvent where
  | chunk (content : List Char) : StreamEvent
  | done : StreamEvent
  | error (msg : String) : StreamEvent
  deriving DecidableEq

/-- The handler-visible event sequence of `mastraProvider.streamLLM` for an
already-fetched response: each dispatched SSE event becomes a `chunk`
handler call, `onDone` becomes a `done` handler call, and a throw from the
response check is caught and reported as an `error` handler call. When the
reader is exhausted without a `done` event, `handleEventStream` returns
normally and the completion promise resolves with no further handler call. -/
def mastraStreamEvents (respOk hasBody : Bool) (chunks : List (List Char)) :
    List StreamEvent :=
  match handleEventStream respOk hasBody chunks with
  | .error e => [.error e]
  | .ok r =>
      (r.events.map (fun ed => StreamEvent.chunk ed.2)) ++
        (if r.doneCalled then [.done] else [])

/-! ## Concrete sample data

Inputs used to instantiate the registry and context theorems on concrete
values; host functions are instantiated at `ε := Nat`. -/

/-- A sample custom setter with an opaque execution function tagged `7`. -/
def sampleSetter : Setter Nat := ⟨"addNode", "adds a node", none, 7⟩

/-- A sample registry holding `nodes` with custom setter `addNode`. -/
def sampleReg : Rec (registeredState Nat) :=
  [("nodes",
    ⟨"nodes", JsonValue.str "v0", none, none, none, some [("addNode", sampleSetter)]⟩)]

/-- A sample registry whose only entry is a placeholder created by
`addCustomSetters` before any real registration. -/
def sampleIncludingPlaceholder : Rec (registeredState Nat) :=
  (addCustomSetters [] "k" [("s", ⟨"s", "sets s", none, 5⟩)]).1

/-- A registration config that supplies every optional field, to exhibit
that none of them is merged into an existing record. -/
def sampleCfg : RegisterConfig Nat :=
  ⟨"k", JsonValue.num 42, some 9, some "new description",
    some (ZodSchemaV.hostSchema 1), some [("t", ⟨"t", "sets t", none, 6⟩)]⟩

/-- A sample mention-sourced context entry. -/
def sampleEntry : ContextEntry := ⟨"e1", ContextSource.mention, JsonValue.null, none⟩

/-- A second context entry with a fresh id. -/
def sampleEntry2 : ContextEntry := ⟨"e2", ContextSource.manual, JsonValue.num 1, none⟩

/-- A sample context mapping with one key holding one entry. -/
def sampleCtx : Rec (List ContextEntry) := [("files", [sampleEntry])]

/-! ## Record (JS object) lemmas -/

namespace Rec

@[simp] theorem get_nil {α : Type} (k : String) : Rec.get ([] : Rec α) k = none := rfl

theorem get_cons {α : Type} (p : String × α) (r : Rec α) (k : String) :
    Rec.get (p :: r) k = if p.1 = k then some p.2 else Rec.get r k := by
  by_cases h : p.1 = k <;> simp [Rec.get, List.find?, h]

theorem get_append_some {α : Type} {r : Rec α} {k : String} {v : α} (s : Rec α)
    (h : Rec.get r k = some v) : Rec.get (r ++ s) k = some v := by
  induction r with
  | nil => simp at h
  | cons p r ih =>
    rw [List.cons_append, get_cons]
    rw [get_cons] at h
    by_cases hp : p.1 = k
    · rwa [if_pos hp] at h ⊢
    · rw [if_neg hp] at h ⊢
      exact ih h

theorem get_append_none {α : Type} {r : Rec α} {k : String} (s : Rec α)
    (h : Rec.get r k = none) : Rec.get (r ++ s) k = Rec.get s k := by
  induction r with
  | nil => simp
  | cons p r ih =>
    rw [List.cons_append, get_cons]
    rw [get_cons] at h
    by_cases hp : p.1 = k
    · rw [if_pos hp] at h; exact absurd h (by simp)
    · rw [if_neg hp] at h ⊢
      exact ih h

theorem get_map_overwrite_ne {α : Type} (r : Rec α) (k k' : String) (v : α)
    (h : k' ≠ k) :
    Rec.get (r.map (fun p => if p.1 = k then (k, v) else p)) k' = Rec.get r k' := by
  induction r with
  | nil => simp
  | cons p r ih =>
    by_cases hp : p.1 = k
    · simp only [List.map_cons, if_pos hp, get_cons, if_neg (Ne.symm h), ih,
        if_neg (hp ▸ Ne.symm h : ¬ p.1 = k')]
    · simp only [List.map_cons, if_neg hp, get_cons, ih]

theorem get_map_overwrite_self {α : Type} (r : Rec α) (k : String) (v : α)
    (h : (Rec.get r k).isSome) :
    Rec.get (r.map (fun p => if p.1 = k then (k, v) else p)) k = some v := by
  induction r with
  | nil => simp [Rec.get] at h
  | cons p r ih =>
    by_cases hp : p.1 = k
    · simp [List.map_cons, if_pos hp, get_cons]
    · rw [get_cons, if_neg hp] at h
      simp only [List.map_cons, if_neg hp, get_cons, if_neg hp]
      exact ih h

theorem get_set_self {α : Type} (r : Rec α) (k : String) (v : α) :
    Rec.get (Rec.set r k v) k = some v := by
  unfold Rec.set
  by_cases h : (Rec.get r k).isSome
  · rw [if_pos h]
    exact get_map_overwrite_self r k v h
  · rw [if_neg h]
    rw [get_append_none _ (Option.not_isSome_iff_eq_none.mp h)]
    simp [get_cons]

theorem get_set_ne {α : Type} (r : Rec α) (k k' : String) (v : α) (h : k' ≠ k) :
    Rec.get (Rec.set r k v) k' = Rec.get r k' := by
  unfold Rec.set
  by_cases hs : (Rec.get r k).isSome
  · rw [if_pos hs]
    exact get_map_overwrite_ne r k k' v h
  · rw [if_neg hs]
    cases hr : Rec.get r k' with
    | some w => exact get_append_some _ hr
    | none =>
      rw [get_append_none _ hr]
      simp [get_cons, Ne.symm h]

theorem spreadMerge_cons {α : Type} (a : Rec α) (p : String × α) (b : Rec α) :
    Rec.spreadMerge a (p :: b) = Rec.spreadMerge (Rec.set a p.1 p.2) b := rfl

/-- Bindings whose key never occurs in `b` are untouched by `{...a, ...b}`. -/
theorem get_spreadMerge_not_mem {α : Type} (a b : Rec α) (k : String)
    (h : k ∉ b.map Prod.fst) : Rec.get (Rec.spreadMerge a b) k = Rec.get a k := by
  induction b generalizing a with
  | nil => rfl
  | cons p b ih =>
    simp only [List.map_cons, List.mem_cons, not_or] at h
    rw [spreadMerge_cons, ih _ h.2]
    exact get_set_ne a p.1 k p.2 h.1

/-- Bindings of `b` always win in `{...a, ...b}` when `b` has no duplicate
keys. -/
theorem get_spreadMerge_of_get {α : Type} (a b : Rec α) (k : String) (v : α)
    (hnd : (b.map Prod.fst).Nodup) (hb : Rec.get b k = some v) :
    Rec.get (Rec.spreadMerge a b) k = some v := by
  induction b generalizing a with
  | nil => simp at hb
  | cons p b ih =>
    simp only [List.map_cons, List.nodup_cons] at hnd
    rw [get_cons] at hb
    rw [spreadMerge_cons]
    by_cases hp : p.1 = k
    · rw [if_pos hp] at hb
      rw [get_spreadMerge_not_mem _ _ _ (hp ▸ hnd.1), ← hp, get_set_self, hb]
    · rw [if_neg hp] at hb
      exact ih _ hnd.2 hb

end Rec

/-! ## Codec lemmas -/

theorem findDoubleNL_le {l : List Char} {i : Nat} (h : findDoubleNL l = some i) :
    i + 2 ≤ l.length := by
  induction l generalizing i with
  | nil => simp [findDoubleNL] at h
  | cons a l ih =>
    cases l with
    | nil => simp [findDoubleNL] at h
    | cons b rest =>
      rw [findDoubleNL] at h
      by_cases hab : a = '\n' ∧ b = '\n'
      · rw [if_pos hab] at h
        cases h
        simp
      · rw [if_neg hab] at h
        obtain ⟨j, hj, rfl⟩ := Option.map_eq_some'.mp h
        have := ih hj
        simp only [List.length_cons] at *
        omega

theorem findDoubleNL_append {l : List Char} {i : Nat} (y : List Char)
    (h : findDoubleNL l = some i) : findDoubleNL (l ++ y) = some i := by
  induction l generalizing i with
  | nil => simp [findDoubleNL] at h
  | cons a l ih =>
    cases l with
    | nil => simp [findDoubleNL] at h
    | cons b rest =>
      rw [findDoubleNL] at h
      rw [List.cons_append, List.cons_append, findDoubleNL]
      by_cases hab : a = '\n' ∧ b = '\n'
      · rwa [if_pos hab] at h ⊢
      · rw [if_neg hab] at h ⊢
        obtain ⟨j, hj, rfl⟩ := Option.map_eq_some'.mp h
        rw [← List.cons_append, ih hj]
        rfl

/-- The fuel of the drain loop is irrelevant once it covers the buffer
length: every iteration removes at least the two terminator characters. -/
theorem drainFuel_congr (f₁ : Nat) : ∀ (f₂ : Nat) (acc : List (List Char × List Char))
    (buf : List Char), buf.length ≤ f₁ → buf.length ≤ f₂ →
    drainFuel f₁ acc buf = drainFuel f₂ acc buf := by
  induction f₁ with
  | zero =>
    intro f₂ acc buf h₁ _
    have : buf = [] := List.length_eq_zero.mp (Nat.le_zero.mp h₁)
    subst this
    cases f₂ <;> simp [drainFuel, findDoubleNL]
  | succ f ih =>
    intro f₂ acc buf h₁ h₂
    cases f₂ with
    | zero =>
      have : buf = [] := List.length_eq_zero.mp (Nat.le_zero.mp h₂)
      subst this
      simp [drainFuel, findDoubleNL]
    | succ g =>
      rw [drainFuel, drainFuel]
      cases hfind : findDoubleNL buf with
      | none => rfl
      | some idx =>
        have hlen : idx + 2 ≤ buf.length := findDoubleNL_le hfind
        have hrest : (buf.drop (idx + 2)).length ≤ f := by
          rw [List.length_drop]; omega
        have hrest₂ : (buf.drop (idx + 2)).length ≤ g := by
          rw [List.length_drop]; omega
        simp only
        by_cases hblank : trimChars (buf.take idx) == []
        · simp only [hblank, if_true]
          exact ih g acc _ hrest hrest₂
        · simp only [hblank, Bool.false_eq_true, if_false]
          by_cases hdone : (parseEvent (buf.take idx)).1 == "done".toList
          · simp only [hdone, if_true]
          · simp only [hdone, Bool.false_eq_true, if_false]
            exact ih g _ _ hrest hrest₂

/-- Draining `x ++ y` first drains `x`; if that hit a `done` event the
suffix `y` is never examined, otherwise draining continues on the leftover
buffer extended by `y`. This is the heart of chunk-boundary insensitivity. -/
theorem drain_append (f : Nat) : ∀ (acc : List (List Char × List Char))
    (x y : List Char), x.length ≤ f →
    drainFuel (x ++ y).length acc (x ++ y) =
      (if (drainFuel f acc x).doneHit then
        ⟨(drainFuel f acc x).events, true, (drainFuel f acc x).buffer ++ y⟩
      else
        drainFuel ((drainFuel f acc x).buffer ++ y).length
          (drainFuel f acc x).events ((drainFuel f acc x).buffer ++ y)) := by
  induction f with
  | zero =>
    intro acc x y hf
    have : x = [] := List.length_eq_zero.mp (Nat.le_zero.mp hf)
    subst this
    simp [drainFuel]
  | succ g ih =>
    intro acc x y hf
    cases hfind : findDoubleNL x with
    | none =>
      have hx : drainFuel (g + 1) acc x = ⟨acc, false, x⟩ := by
        rw [drainFuel, hfind]
      rw [hx]
      simp
    | some idx =>
      have hle : idx + 2 ≤ x.length := findDoubleNL_le hfind
      have hxy : findDoubleNL (x ++ y) = some idx := findDoubleNL_append y hfind
      have htake : (x ++ y).take idx = x.take idx :=
        List.take_append_of_le_length (by omega)
      have hdrop : (x ++ y).drop (idx + 2) = x.drop (idx + 2) ++ y :=
        List.drop_append_of_le_length hle
      have hrest : (x.drop (idx + 2)).length ≤ g := by
        rw [List.length_drop]
        omega
      obtain ⟨n, hn⟩ : ∃ n, (x ++ y).length = n + 1 := by
        refine ⟨(x ++ y).length - 1, ?_⟩
        rw [List.length_append]
        omega
      have hnrest : (x.drop (idx + 2) ++ y).length ≤ n := by
        rw [List.length_append, List.length_drop]
        rw [List.length_append] at hn
        omega
      rw [hn, drainFuel, hxy]
      simp only [htake, hdrop]
      rw [drainFuel, hfind]
      simp only
      by_cases hblank : trimChars (x.take idx) == []
      · simp only [hblank, if_true]
        rw [drainFuel_congr n ((x.drop (idx + 2) ++ y).length) acc _ hnrest (Nat.le_refl _)]
        exact ih acc _ y hrest
      · simp only [hblank, Bool.false_eq_true, if_false]
        by_cases hdone : (parseEvent (x.take idx)).1 == "done".toList
        · simp only [hdone, if_true]
        · simp only [hdone, Bool.false_eq_true, if_false]
          rw [drainFuel_congr n ((x.drop (idx + 2) ++ y).length) _ _ hnrest (Nat.le_refl _)]
          exact ih _ _ y hrest

theorem runChunks_cons_cons (acc : List (List Char × List Char)) (buffer c₁ c₂ : List Char)
    (cs : List (List Char)) :
    runChunks acc buffer (c₁ :: c₂ :: cs) = runChunks acc buffer ((c₁ ++ c₂) :: cs) := by
  have h := drain_append (buffer ++ c₁).length acc (buffer ++ c₁) c₂ (Nat.le_refl _)
  simp only [runChunks]
  simp only [List.length_append, List.append_assoc, Nat.add_assoc] at h ⊢
  rw [h]
  by_cases hd : (drainFuel (buffer.length + c₁.length) acc (buffer ++ c₁)).doneHit = true <;>
    simp [hd]

theorem runChunks_cons (acc : List (List Char × List Char)) (buffer c : List Char)
    (rest : List (List Char)) :
    runChunks acc buffer (c :: rest) =
      (if (drainFuel (buffer ++ c).length acc (buffer ++ c)).doneHit = true then
        ⟨(drainFuel (buffer ++ c).length acc (buffer ++ c)).events, true⟩
      else
        runChunks (drainFuel (buffer ++ c).length acc (buffer ++ c)).events
          (drainFuel (buffer ++ c).length acc (buffer ++ c)).buffer rest) := rfl

theorem runChunks_cons_join (cs : List (List Char)) : ∀ (c : List Char)
    (acc : List (List Char × List Char)) (buffer : List Char),
    runChunks acc buffer (c :: cs) = runChunks acc buffer [c ++ cs.flatten] := by
  induction cs with
  | nil => intro c acc buffer; simp
  | cons c₂ cs ih =>
    intro c acc buffer
    rw [runChunks_cons_cons, ih, List.flatten_cons, List.append_assoc]

theorem runChunks_join (cs : List (List Char)) :
    runChunks [] [] cs = runChunks [] [] [cs.flatten] := by
  cases cs with
  | nil => rfl
  | cons c cs => exact runChunks_cons_join cs c [] []

theorem splitOnNL_ne_nil (l : List Char) : splitOnNL l ≠ [] := by
  cases l with
  | nil => simp [splitOnNL]
  | cons c rest =>
    rw [splitOnNL]
    cases h : splitOnNL rest with
    | nil => simp
    | cons a as =>
      by_cases hc : c = '\n' <;> simp [hc]

theorem splitOnNL_no_nl (a : List Char) (ha : '\n' ∉ a) : splitOnNL a = [a] := by
  induction a with
  | nil => rfl
  | cons c a ih =>
    simp only [List.mem_cons, not_or] at ha
    have hc : ¬ c = '\n' := fun h => ha.1 h.symm
    rw [splitOnNL, ih ha.2]
    simp [hc]

theorem splitOnNL_append_nl (a b : List Char) (ha : '\n' ∉ a) :
    splitOnNL (a ++ '\n' :: b) = a :: splitOnNL b := by
  induction a with
  | nil =>
    rw [List.nil_append, splitOnNL]
    cases h : splitOnNL b with
    | nil => exact absurd h (splitOnNL_ne_nil b)
    | cons l ls => simp
  | cons c a ih =>
    simp only [List.mem_cons, not_or] at ha
    have hc : ¬ c = '\n' := fun h => ha.1 h.symm
    rw [List.cons_append, splitOnNL, ih ha.2]
    simp [hc]

theorem splitOnNL_block (ps : List (List Char)) : ∀ (first : List Char),
    '\n' ∉ first → (∀ p ∈ ps, '\n' ∉ p) →
    splitOnNL (first ++ (ps.map (fun p => '\n' :: ("data:".toList ++ p))).flatten) =
      first :: ps.map (fun p => "data:".toList ++ p) := by
  induction ps with
  | nil =>
    intro first hfirst _
    simp [splitOnNL_no_nl first hfirst]
  | cons p ps ih =>
    intro first hfirst hps
    simp only [List.map_cons, List.flatten_cons, List.cons_append]
    rw [splitOnNL_append_nl first _ hfirst]
    have hdp : '\n' ∉ "data:".toList ++ p := by
      intro hmem
      rcases List.mem_append.mp hmem with h | h
      · simp at h
      · exact hps p (List.mem_cons_self p ps) h
    rw [ih ("data:".toList ++ p) hdp (fun q hq => hps q (List.mem_cons_of_mem p hq))]

theorem foldl_data_lines (T : List Char) (ps : List (List Char)) :
    ∀ (d0 : List Char),
    (ps.map (fun p => "data:".toList ++ p)).foldl parseEventLine (T, d0) =
      (T, d0 ++ (ps.map (fun p =>
        if T == "suggestion".toList then p ++ [' '] else p)).flatten) := by
  induction ps with
  | nil => intro d0; simp
  | cons p ps ih =>
    intro d0
    simp only [List.map_cons, List.foldl_cons, List.flatten_cons]
    have hline : parseEventLine (T, d0) ("data:".toList ++ p) =
        (T, d0 ++ (if T == "suggestion".toList then p ++ [' '] else p)) := by
      simp [parseEventLine, List.isPrefixOf]
    rw [hline, ih, List.append_assoc]

theorem parseEvent_sseBlock (t : List Char) (ps : List (List Char))
    (ht : '\n' ∉ t) (hps : ∀ p ∈ ps, '\n' ∉ p) :
    parseEvent (sseBlock t ps) =
      (trimChars t, (ps.map (fun p =>
        if trimChars t == "suggestion".toList then p ++ [' '] else p)).flatten) := by
  unfold parseEvent sseBlock
  have hev : '\n' ∉ "event:".toList ++ t := by
    intro hmem
    rcases List.mem_append.mp hmem with h | h
    · simp at h
    · exact ht h
  rw [splitOnNL_block ps ("event:".toList ++ t) hev hps]
  rw [List.foldl_cons]
  have hline : parseEventLine ("message".toList, []) ("event:".toList ++ t) =
      (trimChars t, []) := by
    simp [parseEventLine, List.isPrefixOf]
  rw [hline, foldl_data_lines]
  simp

/-! ## Claim theorems: stream protocol codec -/

/-- Claim C5: for every text/event-stream body and every two partitions of
it into successive read chunks, the codec dispatches the identical ordered
sequence of `(eventType, data)` pairs and the same completion signal — no
character is lost or duplicated across read boundaries. (Byte-level splits
inside a multi-byte character are absorbed by `TextDecoder` with
`{stream: true}`, so partitions of the decoded character sequence are the
general case.) -/
theorem claim_C5_chunk_boundary_invariance (cs₁ cs₂ : List (List Char))
    (h : cs₁.flatten = cs₂.flatten) :
    runChunks [] [] cs₁ = runChunks [] [] cs₂ := by
  rw [runChunks_join cs₁, runChunks_join cs₂, h]

/-- Witness for C5: a body split mid-line and mid-event yields the same
codec result as the unsplit body. -/
theorem claim_C5_witness :
    runChunks [] []
        ["event:chu".toList, "nk\ndata:hi\n\nev".toList, "ent:done\n\n".toList] =
      runChunks [] [] ["event:chunk\ndata:hi\n\nevent:done\n\n".toList] :=
  claim_C5_chunk_boundary_invariance
    ["event:chu".toList, "nk\ndata:hi\n\nev".toList, "ent:done\n\n".toList]
    ["event:chunk\ndata:hi\n\nevent:done\n\n".toList] (by decide)

/-- Claim C6: once a `done` event block is parsed the codec stops — the
completion callback fires, and no further `onMessage` dispatch and no
further read happens: appending any additional reads after a run whose
result already signalled `done` leaves the dispatched events and the
result unchanged. Together with C5 (boundary invariance) this also covers
extra complete blocks already buffered in the same read. -/
theorem claim_C6_done_terminates (acc : List (List Char × List Char))
    (buffer : List Char) (cs₁ cs₂ : List (List Char))
    (h : (runChunks acc buffer cs₁).doneCalled = true) :
    runChunks acc buffer (cs₁ ++ cs₂) = runChunks acc buffer cs₁ := by
  induction cs₁ generalizing acc buffer with
  | nil => simp [runChunks] at h
  | cons c cs ih =>
    rw [List.cons_append, runChunks_cons, runChunks_cons]
    rw [runChunks_cons] at h
    by_cases hd : (drainFuel (buffer ++ c).length acc (buffer ++ c)).doneHit = true
    · rw [if_pos hd, if_pos hd]
    · rw [if_neg hd, if_neg hd]
      rw [if_neg hd] at h
      exact ih _ _ h

/-- Witness for C6: a stream that has already delivered `done` ignores a
further read containing another complete event block. -/
theorem claim_C6_witness :
    (runChunks [] [] ["event:done\n\n".toList]).doneCalled = true ∧
    runChunks [] [] (["event:done\n\n".toList] ++ ["event:chunk\ndata:x\n\n".toList]) =
      runChunks [] [] ["event:done\n\n".toList] :=
  ⟨by decide,
    claim_C6_done_terminates [] [] ["event:done\n\n".toList]
      ["event:chunk\ndata:x\n\n".toList] (by decide)⟩

/-- Claim C4 counterexample: a stream exhausted by the reader without any
`done` event completes as a plain success — `handleEventStream` resolves
with `.ok` (and `doneCalled = false`), and the mastra adapter delivers no
`error` (and no `done`) handler event — contradicting the claim that such
an end must surface as an error. -/
theorem claim_C4_counterexample :
    handleEventStream true true ["event:chunk\ndata:hi\n\n".toList] =
      .ok ⟨[("chunk".toList, "hi".toList)], false⟩ ∧
    mastraStreamEvents true true ["event:chunk\ndata:hi\n\n".toList] =
      [StreamEvent.chunk "hi".toList] := by
  exact ⟨by rfl, by decide⟩

/-- Claim C4 (amended): the only error the codec surfaces is the initial
non-OK-status / missing-body check; when the reader is exhausted without a
`done` event having been parsed, the codec completes normally — the
promise resolves, the chunk events dispatched so far stand, and neither an
error nor a `done` handler call is delivered. -/
theorem claim_C4_amended (respOk hasBody : Bool) (chunks : List (List Char)) :
    (handleEventStream respOk hasBody chunks = .error "HTTP error" ↔
      (respOk = false ∨ hasBody = false)) ∧
    ((runChunks [] [] chunks).doneCalled = false →
      mastraStreamEvents respOk hasBody chunks =
        (if respOk && hasBody then
          (runChunks [] [] chunks).events.map (fun ed => StreamEvent.chunk ed.2)
        else [StreamEvent.error "HTTP error"])) := by
  refine ⟨?_, ?_⟩
  · cases respOk <;> cases hasBody <;> simp [handleEventStream]
  · intro h
    cases respOk <;> cases hasBody <;>
      simp [handleEventStream, mastraStreamEvents, h]

/-- Witness for C4: a concrete exhausted stream without `done` resolves to
exactly its chunk events, with no error and no done event. -/
theorem claim_C4_witness :
    mastraStreamEvents true true ["event:meta\ndata:x\n\n".toList] =
      [StreamEvent.chunk "x".toList] := by
  have h := (claim_C4_amended true true ["event:meta\ndata:x\n\n".toList]).2 (by decide)
  rw [h]
  decide

/-- Claim C7 counterexample: a `suggestion` block with payloads `a` and `b`
parses to data `"a b "` — each payload is followed by an appended space, so
the result carries a trailing space and is not the claimed
single-space-separated `"a b"`. -/
theorem claim_C7_counterexample :
    (parseEvent "event:suggestion\ndata:a\ndata:b".toList).2 ≠ "a b".toList ∧
    parseEvent "event:suggestion\ndata:a\ndata:b".toList =
      ("suggestion".toList, "a b ".toList) := by
  exact ⟨by decide, by decide⟩

/-- Claim C7 (amended): in a block whose `event:` line precedes its `data:`
lines, a `suggestion`-typed block concatenates the payloads with a single
space appended after each one (so consecutive payloads are separated by one
space and the result ends in a space), and every other event type
concatenates the payloads with no separator inserted. -/
theorem claim_C7_suggestion_space (t : List Char) (ps : List (List Char))
    (ht : '\n' ∉ t) (hps : ∀ p ∈ ps, '\n' ∉ p) :
    parseEvent (sseBlock t ps) =
      (trimChars t,
        if trimChars t == "suggestion".toList
        then (ps.map (fun p => p ++ [' '])).flatten
        else ps.flatten) := by
  rw [parseEvent_sseBlock t ps ht hps]
  by_cases hs : trimChars t = "suggestion".toList
  · simp [hs]
  · have hs' : ¬ trimChars t = ['s', 'u', 'g', 'g', 'e', 's', 't', 'i', 'o', 'n'] := by
      simpa using hs
    simp [hs']

/-- Witness for C7: a suggestion block and a chunk block with payloads
`a`, `b` produce `"a b "` and `"ab"` respectively. -/
theorem claim_C7_witness :
    parseEvent (sseBlock "suggestion".toList ["a".toList, "b".toList]) =
      ("suggestion".toList, "a b ".toList) ∧
    parseEvent (sseBlock "chunk".toList ["a".toList, "b".toList]) =
      ("chunk".toList, "ab".toList) := by
  constructor
  · have h := claim_C7_suggestion_space "suggestion".toList
      ["a".toList, "b".toList] (by decide) (by decide)
    rw [h]
    decide
  · have h := claim_C7_suggestion_space "chunk".toList
      ["a".toList, "b".toList] (by decide) (by decide)
    rw [h]
    decide

/-! ## Registry lemmas -/

theorem registerState_get_self {ε : Type} (m : Rec (registeredState ε))
    (cfg : RegisterConfig ε) :
    ∃ st : registeredState ε,
      Rec.get (registerState m cfg) cfg.key = some st ∧ st.value = cfg.value := by
  unfold registerState
  cases Rec.get m cfg.key with
  | some ex => exact ⟨_, Rec.get_set_self _ _ _, rfl⟩
  | none => exact ⟨_, Rec.get_set_self _ _ _, rfl⟩

theorem registerState_existing {ε : Type} (m : Rec (registeredState ε))
    (cfg : RegisterConfig ε) (st : registeredState ε) (h : Rec.get m cfg.key = some st) :
    registerState m cfg = Rec.set m cfg.key { st with value := cfg.value } := by
  unfold registerState
  rw [h]

theorem addCustomSetters_existing {ε : Type} (m : Rec (registeredState ε)) (key : String)
    (S : Rec (Setter ε)) (st : registeredState ε) (h : Rec.get m key = some st) :
    Rec.get ((addCustomSetters m key S).1) key =
      some { st with
        customSetters := some (Rec.spreadMerge (st.customSetters.getD []) S) } := by
  unfold addCustomSetters
  rw [h]
  exact Rec.get_set_self _ _ _

theorem executeCustomSetter_hit {ε : Type} (m : Rec (registeredState ε))
    (key setterKey : String) (args : List JsonValue) (st : registeredState ε)
    (ss : Rec (Setter ε)) (s : Setter ε) (hm : Rec.get m key = some st)
    (hcs : st.customSetters = some ss) (hs : Rec.get ss setterKey = some s) :
    executeCustomSetter m key setterKey args = (m, some ⟨s, st.value, args⟩) := by
  simp [executeCustomSetter, hm, hcs, hs]

/-! ## Claim theorems: capability registry and context assembler -/

/-- Claim C3: `executeCustomSetter` on an unregistered key, on a state
without custom setters, or on an unknown setter name never throws (every
property access in the source is guarded, so the embedding is total) and is
a logged no-op: the registry map is returned unchanged and no setter
invocation happens. -/
theorem claim_C3_executeCustomSetter_noop {ε : Type} (m : Rec (registeredState ε))
    (key setterKey : String) (args : List JsonValue)
    (h : ((Rec.get m key).bind (fun st => st.customSetters)).bind
        (fun ss => Rec.get ss setterKey) = none) :
    executeCustomSetter m key setterKey args = (m, none) := by
  cases hm : Rec.get m key with
  | none => simp [executeCustomSetter, hm]
  | some st =>
    rw [hm, Option.some_bind] at h
    cases hcs : st.customSetters with
    | none => simp [executeCustomSetter, hm, hcs]
    | some ss =>
      rw [hcs, Option.some_bind] at h
      simp [executeCustomSetter, hm, hcs, h]

/-- Witness for C3: invoking a setter name that is not attached to the
registered `nodes` state is a no-op on a concrete registry. -/
theorem claim_C3_witness :
    executeCustomSetter sampleReg "nodes" "removeNode" [] = (sampleReg, none) :=
  claim_C3_executeCustomSetter_noop sampleReg "nodes" "removeNode" [] (by rfl)

/-- Claim C2: after `register(key, v1); addCustomSetters(key, S);
register(key, v2)` — starting from any registry, so the key may also have
begun as a placeholder — the second registration replaces only the stored
value with `v2` (the whole update is an in-place overwrite of that one
record), and every custom setter present before it, including those merged
in from `S`, is still attached and invocable: `executeCustomSetter` on it
fires the very setter with the new value `v2` and the given arguments. -/
theorem claim_C2_reregistration_preserves_setters {ε : Type}
    (m0 : Rec (registeredState ε)) (key : String) (v1 v2 : JsonValue)
    (sv1 sv2 : Option ε) (d1 d2 : Option String) (sc1 sc2 : Option ZodSchemaV)
    (cs1 cs2 : Option (Rec (Setter ε))) (S : Rec (Setter ε))
    (args : List JsonValue) (m1 m2 m3 : Rec (registeredState ε))
    (hm1 : m1 = registerState m0 ⟨key, v1, sv1, d1, sc1, cs1⟩)
    (hm2 : m2 = (addCustomSetters m1 key S).1)
    (hm3 : m3 = registerState m2 ⟨key, v2, sv2, d2, sc2, cs2⟩) :
    ∃ st2 : registeredState ε,
      Rec.get m2 key = some st2 ∧
      m3 = Rec.set m2 key { st2 with value := v2 } ∧
      Rec.get m3 key = some { st2 with value := v2 } ∧
      (∀ name s, Rec.get (st2.customSetters.getD []) name = some s →
        executeCustomSetter m3 key name args = (m3, some ⟨s, v2, args⟩)) ∧
      ((S.map Prod.fst).Nodup → ∀ name s, Rec.get S name = some s →
        Rec.get (st2.customSetters.getD []) name = some s) := by
  subst hm3 hm2 hm1
  obtain ⟨st1, hst1, -⟩ :=
    registerState_get_self m0 ⟨key, v1, sv1, d1, sc1, cs1⟩
  have h2 := addCustomSetters_existing
    (registerState m0 ⟨key, v1, sv1, d1, sc1, cs1⟩) key S st1 hst1
  set st2 : registeredState ε :=
    { st1 with
      customSetters := some (Rec.spreadMerge (st1.customSetters.getD []) S) }
    with hst2def
  have hm3eq := registerState_existing _ ⟨key, v2, sv2, d2, sc2, cs2⟩ _ h2
  have hget3 : Rec.get (registerState
      ((addCustomSetters (registerState m0 ⟨key, v1, sv1, d1, sc1, cs1⟩) key S).1)
      ⟨key, v2, sv2, d2, sc2, cs2⟩) key = some { st2 with value := v2 } := by
    rw [hm3eq]
    exact Rec.get_set_self _ _ _
  refine ⟨st2, h2, hm3eq, hget3, ?_, ?_⟩
  · intro name s hname
    exact executeCustomSetter_hit _ key name args { st2 with value := v2 }
      (st2.customSetters.getD []) s hget3 rfl hname
  · intro hnd name s hS
    exact Rec.get_spreadMerge_of_get _ S name s hnd hS

/-- Witness for C2: the concrete sequence register `nodes` with value
`"a"`, attach `addNode`, re-register with value `"b"`; `addNode` is still
invocable and fires with the new value. -/
theorem claim_C2_witness :
    executeCustomSetter
        (registerState
          ((addCustomSetters
            (registerState ([] : Rec (registeredState Nat))
              ⟨"nodes", JsonValue.str "a", none, none, none, none⟩)
            "nodes" [("addNode", sampleSetter)]).1)
          ⟨"nodes", JsonValue.str "b", none, none, none, none⟩)
        "nodes" "addNode" [JsonValue.num 3] =
      ((registerState
          ((addCustomSetters
            (registerState ([] : Rec (registeredState Nat))
              ⟨"nodes", JsonValue.str "a", none, none, none, none⟩)
            "nodes" [("addNode", sampleSetter)]).1)
          ⟨"nodes", JsonValue.str "b", none, none, none, none⟩),
        some ⟨sampleSetter, JsonValue.str "b", [JsonValue.num 3]⟩) := by
  obtain ⟨st2, hget, hm3eq, hget3, hexec, hS⟩ :=
    claim_C2_reregistration_preserves_setters ([] : Rec (registeredState Nat))
      "nodes" (JsonValue.str "a") (JsonValue.str "b") none none none none none none
      none none [("addNode", sampleSetter)] [JsonValue.num 3] _ _ _ rfl rfl rfl
  exact hexec "addNode" sampleSetter (hS (by decide) "addNode" sampleSetter rfl)

/-- Claim C10: when `registerState` hits an existing key — including a
placeholder created earlier by `addCustomSetters` — the stored record keeps
its previous `setValue`, `description`, `schema` and `customSetters` and
only `value` is replaced; the `setValue`, `description`, `schema` and
`customSetters` supplied in the new config are never merged in, and other
keys are untouched. -/
theorem claim_C10_register_existing_overwrites_value_only {ε : Type}
    (m : Rec (registeredState ε)) (cfg : RegisterConfig ε) (st : registeredState ε)
    (h : Rec.get m cfg.key = some st) :
    Rec.get (registerState m cfg) cfg.key =
      some ⟨st.key, cfg.value, st.setValue, st.description, st.schema,
        st.customSetters⟩ ∧
    (∀ k', k' ≠ cfg.key → Rec.get (registerState m cfg) k' = Rec.get m k') := by
  constructor
  · rw [registerState_existing m cfg st h]
    exact Rec.get_set_self _ _ _
  · intro k' hk
    rw [registerState_existing m cfg st h]
    exact Rec.get_set_ne _ _ _ _ hk

/-- Witness for C10: re-registering over a placeholder with a config that
supplies `setValue`, `description`, `schema` and `customSetters` stores only
the new value; the placeholder's fields survive and the supplied ones are
dropped. -/
theorem claim_C10_witness :
    Rec.get (registerState sampleIncludingPlaceholder sampleCfg) "k" =
      some ⟨"k", JsonValue.num 42, none, some "", some ZodSchemaV.zAny,
        some [("s", ⟨"s", "sets s", none, 5⟩)]⟩ ∧
    Rec.get (registerState sampleIncludingPlaceholder sampleCfg) "other" =
      Rec.get sampleIncludingPlaceholder "other" := by
  have h := claim_C10_register_existing_overwrites_value_only
    sampleIncludingPlaceholder sampleCfg
    ⟨"k", JsonValue.str "", none, some "", some ZodSchemaV.zAny,
      some [("s", ⟨"s", "sets s", none, 5⟩)]⟩ (by rfl)
  exact ⟨h.1, h.2 "other" (by decide)⟩

/-- Claim C9: `addContextEntry` is idempotent on entry ids — when an entry
with the same id already exists under the key the whole context mapping is
returned unchanged; otherwise the entry is appended at the end of that
key's list and every other key is untouched. -/
theorem claim_C9_addContextEntry_idempotent (ctx : Rec (List ContextEntry))
    (key : String) (entry : ContextEntry) :
    (((Rec.get ctx key).getD []).any (fun e => e.id == entry.id) = true →
      addContextEntry ctx key entry = ctx) ∧
    (((Rec.get ctx key).getD []).any (fun e => e.id == entry.id) = false →
      Rec.get (addContextEntry ctx key entry) key =
        some (((Rec.get ctx key).getD []) ++ [entry]) ∧
      (∀ k', k' ≠ key → Rec.get (addContextEntry ctx key entry) k' = Rec.get ctx k')) := by
  constructor
  · intro h
    unfold addContextEntry
    simp only [h, if_true]
  · intro h
    unfold addContextEntry
    simp only [h, Bool.false_eq_true, if_false]
    exact ⟨Rec.get_set_self _ _ _, fun k' hk => Rec.get_set_ne _ _ _ _ hk⟩

/-- Witness for C9: adding an entry with an already-present id (even with
different payload) leaves the context unchanged; a fresh id is appended at
the end and other keys are unchanged. -/
theorem claim_C9_witness :
    addContextEntry sampleCtx "files"
        ⟨"e1", ContextSource.manual, JsonValue.num 7, none⟩ = sampleCtx ∧
    Rec.get (addContextEntry sampleCtx "files" sampleEntry2) "files" =
      some [sampleEntry, sampleEntry2] ∧
    Rec.get (addContextEntry sampleCtx "files" sampleEntry2) "other" =
      Rec.get sampleCtx "other" := by
  refine ⟨(claim_C9_addContextEntry_idempotent sampleCtx "files" _).1 (by rfl), ?_, ?_⟩
  · exact ((claim_C9_addContextEntry_idempotent sampleCtx "files" sampleEntry2).2
      (by rfl)).1
  · exact ((claim_C9_addContextEntry_idempotent sampleCtx "files" sampleEntry2).2
      (by rfl)).2 "other" (by decide)

/-! ## Claim theorems: structured-response router and gateway -/

/-- Claim C1 counterexample: (i) an `action` response that also carries
non-empty plain-text content appends that content as an assistant message
after the setter invocation — not zero messages as claimed; (ii) a response
whose `stateKey` is present but the empty string fires no setter at all —
not exactly one invocation as claimed (the source tests truthiness, not
presence). -/
theorem claim_C1_counterexample :
    handleLLMResult ⟨"hi", some ⟨some "action", some "nodes", some "addNode",
        some [JsonValue.obj [("title", JsonValue.str "X")]], none, none⟩⟩ =
      [HandleEffect.execSetter "nodes" "addNode"
          [JsonValue.obj [("title", JsonValue.str "X")]],
        HandleEffect.addMessage "assistant" "text" "hi"] ∧
    handleLLMResult ⟨"", some ⟨some "action", some "", some "addNode",
        none, none, none⟩⟩ = [] :=
  ⟨rfl, rfl⟩

/-- Claim C1 (amended): for a structured response of declared type `action`
whose `stateKey` and `setterKey` are present and non-empty,
`handleLLMResult` invokes `executeCustomSetter` exactly once with that
`stateKey`, that `setterKey` and the payload's `args` (empty when absent);
it appends no message when the response's plain-text content is empty, but
a non-empty content is additionally appended as an assistant text message
(the `action` switch arm falls through to the default append). -/
theorem claim_C1_action_routes_setter (r : LLMResponse) (sr : StructuredResponse)
    (hobj : r.object = some sr) (htype : sr.type = some "action")
    (hsk : truthyStr sr.stateKey = true) (hset : truthyStr sr.setterKey = true) :
    handleLLMResult r =
      HandleEffect.execSetter (sr.stateKey.getD "") (sr.setterKey.getD "")
          (sr.args.getD []) ::
        (if r.content == "" then []
         else [HandleEffect.addMessage "assistant" "text" r.content]) := by
  unfold handleLLMResult
  simp only [hobj]
  simp only [htype]
  simp [hsk, hset]

/-- Witness for C1: a concrete action response with non-empty content fires
the setter once and appends the content afterwards. -/
theorem claim_C1_witness :
    handleLLMResult ⟨"ok", some ⟨some "action", some "nodes", some "addNode",
        some [JsonValue.str "a"], none, none⟩⟩ =
      [HandleEffect.execSetter "nodes" "addNode" [JsonValue.str "a"],
        HandleEffect.addMessage "assistant" "text" "ok"] :=
  claim_C1_action_routes_setter
    ⟨"ok", some ⟨some "action", some "nodes", some "addNode",
      some [JsonValue.str "a"], none, none⟩⟩
    ⟨some "action", some "nodes", some "addNode", some [JsonValue.str "a"], none, none⟩
    rfl rfl (by decide) (by decide)

/-- Claim C8: `callLLM` and `streamLLM` behave identically up to the
provider hand-off and raise a configuration error — returning before the
provider implementation, and hence before any network I/O, is reached —
exactly when no provider is configured, when an openai/anthropic/ai-sdk
provider is selected without a `model` parameter, or when the mastra
provider is selected without a `route` parameter. -/
theorem claim_C8_gateway_validation (config : Option ProviderKind) (p : ParamsFields) :
    (isConfigError (callLLM config p) = true ↔
      (config = none ∨
        (config = some ProviderKind.openai ∧ p.hasModel = false) ∨
        (config = some ProviderKind.anthropic ∧ p.hasModel = false) ∨
        (config = some ProviderKind.aiSdk ∧ p.hasModel = false) ∨
        (config = some ProviderKind.mastra ∧ p.hasRoute = false))) ∧
    streamLLM config p = callLLM config p := by
  obtain ⟨hm, hr⟩ := p
  cases config with
  | none => cases hm <;> cases hr <;> exact ⟨by decide, rfl⟩
  | some k => cases k <;> cases hm <;> cases hr <;> exact ⟨by decide, rfl⟩

end Cedar
